import Mathlib

/-!
# testmyram: a shallow embedding of the memory-test engine

The development follows `src/prng.c` (the pattern generator) and
`src/testmyram.c` (fill / verify, the iteration loop and the instance runner).

Machine integers are natural numbers reduced modulo `2 ^ 32` or `2 ^ 64` where
the C type would wrap.  A memory block is a list of words; the block set of an
instance is a list of blocks.  Everything the program takes from its
environment (the entropy device, the cancellation flag, the allocator, the
behaviour of the memory under test, thread joins) is an explicit input.
-/

namespace TestMyRam

/-! ## prng.c -/

/-- Modelled from the spec: the header `prng.h`, which declares `prng_state_t`, is not
part of the sources.  `prng_next` returns the member `s.value` after writing the
member `s.state`; the spec says the emitted word is "a fixed 32-bit slice of the
64-bit state (the low/high half depending on chosen layout)".  `Half` names that
choice; every result below holds for both. -/
inductive Half where
  | low
  | high
  deriving DecidableEq, Repr

/-- Byte order of a `uint32_t` object in memory (used by `fread` into the seed). -/
inductive ByteOrder where
  | little
  | big
  deriving DecidableEq, Repr

/-- What the C code leaves to the target: which half of the state `s.value` aliases
and how the bytes of a `uint32_t` are laid out. -/
structure Target where
  value_half : Half
  byte_order : ByteOrder
  deriving DecidableEq, Repr

/-- The constant `UINT32_MAX`. -/
def UINT32_MAX : Nat := 4294967295

/-- The constant `UINT16_MAX`. -/
def UINT16_MAX : Nat := 65535

/-- The member `s.value` of a state whose member `s.state` is `state`. -/
def prng_value (p : Target) (state : Nat) : Nat :=
  match p.value_half with
  | Half.low => state % 2 ^ 32
  | Half.high => (state / 2 ^ 32) % 2 ^ 32

/-- The function `prng_init(seed, state)`: the new content of `state->s.state`.  The second
argument is the content of `*state` before the call (it is overwritten). -/
def prng_init (seed : Nat) (_state : Nat) : Nat :=
  ((seed &&& 0x0000ffff) % 2 ^ 64) ||| ((((seed &&& 0xffff0000) % 2 ^ 64) <<< 16) % 2 ^ 64)

/-- The multiplier `a` of `prng_next`. -/
def prng_a : Nat := 6364136223846793005

/-- The increment `c` of `prng_next`. -/
def prng_c : Nat := 1442695040888963407

/-- The function `prng_next(state)`: the returned word and the new content of
`state->s.state`.  The sum `a * state + c` of the source is written with its
constant summand first. -/
def prng_next (p : Target) (state : Nat) : Nat × Nat :=
  let s := (prng_c + prng_a * state) % 2 ^ 64
  (prng_value p s, s)

/-- The words returned by `n` successive calls of `prng_next`, and the state after them. -/
def prng_draw (p : Target) : Nat → Nat → List Nat × Nat
  | 0, state => ([], state)
  | n + 1, state =>
    let r := prng_next p state
    let rest := prng_draw p n r.2
    (r.1 :: rest.1, rest.2)

/-- Outcome of one access to `DEV_RANDOM` in `prng_init_from_dev_random`. -/
inductive DevRandom where
  /-- The call of `fopen` returned `NULL`. -/
  | missing
  /-- The call of `fopen` succeeded and `fread` delivered these bytes (at most four are
  stored). -/
  | bytes (bs : List Nat)
  deriving DecidableEq, Repr

/-- The four bytes of a `uint32_t` in memory order. -/
def uint32_bytes (o : ByteOrder) (v : Nat) : List Nat :=
  let le := [v % 256, (v / 2 ^ 8) % 256, (v / 2 ^ 16) % 256, (v / 2 ^ 24) % 256]
  match o with
  | ByteOrder.little => le
  | ByteOrder.big => le.reverse

/-- The `uint32_t` whose bytes in memory order are the given ones. -/
def uint32_of_bytes (o : ByteOrder) (bs : List Nat) : Nat :=
  let le := match o with
    | ByteOrder.little => bs
    | ByteOrder.big => bs.reverse
  (le.getD 0 0) % 256 + (le.getD 1 0) % 256 * 2 ^ 8 + (le.getD 2 0) % 256 * 2 ^ 16
    + (le.getD 3 0) % 256 * 2 ^ 24

/-- The call `fread(&seed, sizeof(uint32_t), 1, file)`: the delivered bytes overwrite the
leading bytes of the object `seed`; bytes that were not delivered keep their value. -/
def fread_seed (o : ByteOrder) (seed : Nat) (bs : List Nat) : Nat :=
  let got := bs.take 4
  uint32_of_bytes o (got ++ (uint32_bytes o seed).drop got.length)

/-- The function `prng_init_from_dev_random(state)`: the returned seed and the new state. -/
def prng_init_from_dev_random (p : Target) (dev : DevRandom) (state : Nat) : Nat × Nat :=
  let seed0 := 0x02300420
  let seed := match dev with
    | DevRandom.missing => seed0
    | DevRandom.bytes bs => fread_seed p.byte_order seed0 bs
  (seed, prng_init seed state)

/-! ## testmyram.c: blocks -/

/-- One line written by `check_block` to `stderr`: the position of the word inside the
block, the content found and the content expected. -/
structure Mismatch where
  index : Nat
  actual : Nat
  expected : Nat
  deriving DecidableEq, Repr

/-- The `for` loop of `fill_block`: `k` words remain, the next one is `block[i]`. -/
def fill_block_loop (p : Target) : Nat → Nat → List Nat → Nat → List Nat × Nat
  | 0, _, block, state => (block, state)
  | k + 1, i, block, state =>
    let r := prng_next p state
    fill_block_loop p k (i + 1) (block.set i r.1) r.2

/-- The function `fill_block(block, n, state)`: the block and the generator state afterwards. -/
def fill_block (p : Target) (block : List Nat) (n : Nat) (state : Nat) : List Nat × Nat :=
  fill_block_loop p n 0 block state

/-- Result of `check_block`: the return value, the lines reported and the generator
state afterwards. -/
structure Checked where
  ret : Int
  reports : List Mismatch
  state : Nat
  deriving DecidableEq, Repr

/-- The `for` loop of `check_block`: `k` words remain, the next one is at offset `i`. -/
def check_block_loop (p : Target) : Nat → Nat → List Nat → Checked → Checked
  | 0, _, _, acc => acc
  | k + 1, i, block, acc =>
    let r := prng_next p acc.state
    let temp := r.1
    if block.getD i 0 ≠ temp then
      check_block_loop p k (i + 1) block
        ⟨-1, acc.reports ++ [⟨i, block.getD i 0, temp⟩], r.2⟩
    else
      check_block_loop p k (i + 1) block ⟨acc.ret, acc.reports, r.2⟩

/-- The function `check_block(block, n, state, str)`. -/
def check_block (p : Target) (block : List Nat) (n : Nat) (state : Nat) : Checked :=
  check_block_loop p n 0 block ⟨0, [], state⟩

/-! ## testmyram.c: instances -/

/-- The struct `Inst`.  `fade_time` is the pair `(tv_sec, tv_nsec)`. -/
structure Inst where
  num_of_blocks : Nat
  words_per_block : Nat
  blocks : List (List Nat)
  iterations_left : Nat
  read_iterations : Nat
  rand_seed : Nat
  rand_state : Nat
  fade_time : Nat × Nat
  return_value : Int
  job_id : Nat
  deriving DecidableEq, Repr

/-- The struct `Config`. -/
structure Config where
  fade_seconds : Nat
  num_of_blocks : Nat
  size_per_block : Nat
  total_iterations : Nat
  read_iterations : Nat
  instances : Nat
  deriving DecidableEq, Repr

/-- The allocator as `init_instance` meets it: whether `xmalloc` of the block table
succeeds, and for block `i` either `none` (`xmalloc` returned `NULL`) or the
uninitialised content of the new block, word by word. -/
structure Heap where
  table : Bool
  block : Nat → Option (Nat → Nat)

/-- The allocation loop of `init_instance`: `k` blocks remain, the next one is `blocks[i]`.
The result is `none` when an `xmalloc` fails. -/
def alloc_blocks_loop (heap : Heap) (words : Nat) :
    Nat → Nat → List (List Nat) → Option (List (List Nat))
  | 0, _, blocks => some blocks
  | k + 1, i, blocks =>
    match heap.block i with
    | none => none
    | some content =>
      alloc_blocks_loop heap words k (i + 1) (blocks.set i ((List.range words).map content))

/-- The function `init_instance(inst, config, job_id)`: the return value and the
instance afterwards (`inst` before the call is uninitialised, so it is not an input).
After a failure the blocks have been released; the instance then owns none. -/
def init_instance (config : Config) (job_id : Nat) (heap : Heap) : Int × Inst :=
  let inst : Inst :=
    { num_of_blocks := config.num_of_blocks
      words_per_block := config.size_per_block / 4
      blocks := []
      iterations_left := config.total_iterations
      read_iterations := config.read_iterations
      rand_seed := 0
      rand_state := 0
      fade_time := (config.fade_seconds, 0)
      return_value := -1
      job_id := job_id }
  if heap.table = false then (-1, inst)
  else
    match alloc_blocks_loop heap inst.words_per_block inst.num_of_blocks 0
        (List.replicate inst.num_of_blocks []) with
    | none => (-1, inst)
    | some blocks => (0, { inst with blocks := blocks })

/-- What the program observes of its environment while an instance runs.
* `running n`: the value of `program_running` at the `n`-th read of the flag by
  this instance (counted from 0);
* `dev_random n`: the outcome of the `n`-th access to the entropy device;
* `memory n i j v`: the word held by word `j` of block `i` when comparison pass
  `n` starts, where `v` is the word it held before (fault-free memory returns `v`). -/
structure World where
  running : Nat → Bool
  dev_random : Nat → DevRandom
  memory : Nat → Nat → Nat → Nat → Nat

/-- The phases of `perform_memtest`, in the order in which they happen. -/
inductive Event where
  /-- One fill phase (lines 229-232), with the seed that was drawn. -/
  | fill (seed : Nat)
  /-- One call of `memory_fade_delay` that suspended the instance. -/
  | wait
  /-- The message "Interrupted, terminating after next comparison." -/
  | interrupted
  /-- One comparison pass (lines 246-252): the result of `check_block` for
  every block, in block order. -/
  | compare (results : List Checked)
  deriving DecidableEq, Repr

/-- An instance while `perform_memtest` runs: the struct itself, how often the flag,
the entropy device and the comparison have been used so far, and the phases so far. -/
structure Run where
  inst : Inst
  reads : Nat
  fills : Nat
  passes : Nat
  trace : List Event
  deriving DecidableEq, Repr

/-- The loop `for(i = 0; i < num_of_blocks; ++i) fill_block(blocks[i], ...)`:
`k` blocks remain, the next one is `blocks[i]`. -/
def fill_blocks_loop (p : Target) (words : Nat) :
    Nat → Nat → List (List Nat) → Nat → List (List Nat) × Nat
  | 0, _, blocks, state => (blocks, state)
  | k + 1, i, blocks, state =>
    let r := fill_block p (blocks.getD i []) words state
    fill_blocks_loop p words k (i + 1) (blocks.set i r.1) r.2

/-- Result of the comparison loop over the blocks: the new `return_value`, the
generator state, and the result of each `check_block` call. -/
structure Pass where
  return_value : Int
  state : Nat
  results : List Checked
  deriving DecidableEq, Repr

/-- The loop `for(i = 0; i < num_of_blocks; ++i) if(check_block(...) != 0)
return_value = -2`: `k` blocks remain, the next one is `blocks[i]`. -/
def check_blocks_loop (p : Target) (words : Nat) (blocks : List (List Nat)) :
    Nat → Nat → Pass → Pass
  | 0, _, acc => acc
  | k + 1, i, acc =>
    let c := check_block p (blocks.getD i []) words acc.state
    check_blocks_loop p words blocks k (i + 1)
      ⟨if c.ret ≠ 0 then -2 else acc.return_value, c.state, acc.results ++ [c]⟩

/-- The memory under test between the passes: every word of every block is replaced by
what `memory n` makes of it. -/
def apply_memory (memory : Nat → Nat → Nat → Nat) (blocks : List (List Nat)) :
    List (List Nat) :=
  (List.range blocks.length).map fun i =>
    (List.range (blocks.getD i []).length).map fun j =>
      memory i j ((blocks.getD i []).getD j 0)

/-- The function `memory_fade_delay(tspec, str)`.  The loop
`while(nanosleep(&tspec, &tspec) == EINTR && program_running)` calls `nanosleep`
once: `nanosleep` returns 0 or -1 and `EINTR` is a positive `errno` value, so the
first operand is false, the flag is not read and the loop ends.  The call, whether
it slept to the end or was cut short by the signal, is the event `wait`. -/
def memory_fade_delay (tspec : Nat × Nat) (st : Run) : Run :=
  if tspec.1 = 0 ∧ tspec.2 = 0 then st
  else { st with trace := st.trace ++ [Event.wait] }

/-- The body of the read loop up to the comparison (lines 236-252): the fade delay,
one read of the flag for the message, `prng_init` from the stored seed, and the
comparison loop over the blocks. -/
def comparison_pass (p : Target) (w : World) (st : Run) : Run :=
  let st1 := memory_fade_delay st.inst.fade_time st
  let running := w.running st1.reads
  let trace1 := if running = false then st1.trace ++ [Event.interrupted] else st1.trace
  let blocks := apply_memory (w.memory st1.passes) st1.inst.blocks
  let state := prng_init st1.inst.rand_seed st1.inst.rand_state
  let pass := check_blocks_loop p st1.inst.words_per_block blocks st1.inst.num_of_blocks 0
    ⟨st1.inst.return_value, state, []⟩
  { inst := { st1.inst with
              blocks := blocks, rand_state := pass.state,
              return_value := pass.return_value }
    reads := st1.reads + 1
    fills := st1.fills
    passes := st1.passes + 1
    trace := trace1 ++ [Event.compare pass.results] }

/-- The loop `for(ri = inst->read_iterations; ri > 0; --ri)` of `perform_memtest`,
entered with `ri` iterations to go; it ends early through
`if(!program_running) break;`. -/
def read_loop (p : Target) (w : World) : Nat → Run → Run
  | 0, st => st
  | ri + 1, st =>
    let st1 := comparison_pass p w st
    let running := w.running st1.reads
    let st2 := { st1 with reads := st1.reads + 1 }
    if running = false then st2 else read_loop p w ri st2

/-- The fill phase of one outer iteration (lines 229-232). -/
def fill_phase (p : Target) (w : World) (st : Run) : Run :=
  let r := prng_init_from_dev_random p (w.dev_random st.fills) st.inst.rand_state
  let f := fill_blocks_loop p st.inst.words_per_block st.inst.num_of_blocks 0
    st.inst.blocks r.2
  { st with
    inst := { st.inst with rand_seed := r.1, blocks := f.1, rand_state := f.2 }
    fills := st.fills + 1
    trace := st.trace ++ [Event.fill r.1] }

/-- The operator `--` on a `uint32_t`: 0 wraps around to `UINT32_MAX`. -/
def uint32_dec (x : Nat) : Nat :=
  if x = 0 then UINT32_MAX else x - 1

/-- The statement `if(inst->iterations_left < UINT32_MAX) --inst->iterations_left;`. -/
def end_of_iteration (inst : Inst) : Inst :=
  if inst.iterations_left < UINT32_MAX then
    { inst with iterations_left := uint32_dec inst.iterations_left }
  else inst

/-- The body of the `while` loop of `perform_memtest` (lines 217-259): one outer
iteration. -/
def outer_iteration (p : Target) (w : World) (st : Run) : Run :=
  let st1 := fill_phase p w st
  let st2 := read_loop p w st1.inst.read_iterations st1
  { st2 with inst := end_of_iteration st2.inst }

/-- The loop `while(program_running && inst->iterations_left > 0)` of
`perform_memtest`.  The loop need not end, so it runs on fuel: one unit per
evaluation of the loop condition; `none` means the fuel ran out. -/
def memtest_loop (p : Target) (w : World) : Nat → Run → Option Run
  | 0, _ => none
  | fuel + 1, st =>
    let running := w.running st.reads
    let st0 := { st with reads := st.reads + 1 }
    if running = true ∧ st0.inst.iterations_left > 0 then
      memtest_loop p w fuel (outer_iteration p w st0)
    else some st0

/-- The function `perform_memtest(arg)`: the instance it returns, with the record of
what it did, or `none` when the fuel ran out. -/
def perform_memtest (p : Target) (w : World) (fuel : Nat) (inst : Inst) : Option Run :=
  match memtest_loop p w fuel ⟨inst, 0, 0, 0, []⟩ with
  | none => none
  | some st => some { st with inst := { st.inst with return_value := st.inst.return_value + 1 } }

/-! ## testmyram.c: the instance runner -/

/-- What the runner returns: the `int` result and the instances that ran to the end
and were collected, in order. -/
structure Outcome where
  ret : Int
  runs : List Run
  deriving DecidableEq, Repr

/-- The function `run_single_instance(config)`. -/
def run_single_instance (p : Target) (heap : Heap) (w : World) (fuel : Nat)
    (config : Config) : Option Outcome :=
  let r := init_instance config 0 heap
  if r.1 ≠ 0 then some ⟨-1, []⟩
  else
    match perform_memtest p w fuel r.2 with
    | none => none
    | some st => some ⟨st.inst.return_value, [st]⟩

/-- Outcome of `pthread_join(threads[i], &retptr)` as tested on line 329. -/
inductive Join where
  /-- The call returned a non-zero value. -/
  | failed
  /-- The call returned 0 and `retptr` is `NULL`. -/
  | null
  /-- The call returned 0 and `retptr` is what the thread function returned. -/
  | returned
  deriving DecidableEq, Repr

/-- What `run_threaded` takes from its environment: whether `xmalloc` of the
`pthread_t` array succeeds; for thread `n` whether `xmalloc(sizeof(Inst))` succeeds,
the allocator met by its `init_instance`, whether `pthread_create` returns 0, the
world in which its `perform_memtest` runs, and the outcome of joining it. -/
structure Threads where
  table : Bool
  inst_alloc : Nat → Bool
  heap : Nat → Heap
  create : Nat → Bool
  world : Nat → World
  join : Nat → Join

/-- The loop `for(; num_threads < config->instances; ++num_threads)` of `run_threaded`:
`k` instances remain to be started, `n` is `num_threads`; the result lists the
instances handed to a thread. -/
def start_loop (config : Config) (env : Threads) : Nat → Nat → List Inst → List Inst
  | 0, _, started => started
  | k + 1, n, started =>
    if env.inst_alloc n = false then started
    else
      let r := init_instance config ((n + 1) % 2 ^ 16) (env.heap n)
      if r.1 ≠ 0 then started
      else if env.create n = false then started
      else start_loop config env k (n + 1) (started ++ [r.2])

/-- The loop `for(i = 0; i < num_threads; ++i)` of `run_threaded` over the started
threads, from thread `i` on. -/
def join_loop (p : Target) (env : Threads) (fuel : Nat) :
    List Inst → Nat → Outcome → Option Outcome
  | [], _, acc => some acc
  | inst :: rest, i, acc =>
    match env.join i with
    | Join.failed => join_loop p env fuel rest (i + 1) ⟨-1, acc.runs⟩
    | Join.null => join_loop p env fuel rest (i + 1) ⟨-1, acc.runs⟩
    | Join.returned =>
      match perform_memtest p (env.world i) fuel inst with
      | none => none
      | some st =>
        join_loop p env fuel rest (i + 1)
          ⟨if st.inst.return_value ≠ 0 then -1 else acc.ret, acc.runs ++ [st]⟩

/-- The function `run_threaded(config)`. -/
def run_threaded (p : Target) (env : Threads) (fuel : Nat) (config : Config) :
    Option Outcome :=
  if env.table = false then some ⟨-1, []⟩
  else
    let started := start_loop config env config.instances 0 []
    let ret : Int := 0
    if started.length = 0 then some ⟨ret, []⟩
    else join_loop p env fuel started 0 ⟨ret, []⟩

/-- How `main` ends: the line it prints and the exit status. -/
inductive Exit where
  /-- The line "OK." and `EXIT_SUCCESS`. -/
  | ok
  /-- The line "Memory check failed." and `EXIT_FAILURE`. -/
  | memory_check_failed
  deriving DecidableEq, Repr

/-- The end of `main` (lines 560-567) for the result `ret` of the runner. -/
def main_exit (ret : Int) : Exit :=
  if ret = 0 then Exit.ok else Exit.memory_check_failed

/-- The part of `main` after the command line has been read (lines 553-567). -/
def main_run (p : Target) (heap : Heap) (w : World) (env : Threads) (fuel : Nat)
    (config : Config) : Option Exit :=
  let r := if config.instances = 1 then run_single_instance p heap w fuel config
    else run_threaded p env fuel config
  match r with
  | none => none
  | some o => some (main_exit o.ret)

/-! ## Auxiliary definitions used to state the properties -/

/-- The lines `check_block` reports for a block compared from offset `i` on with the
expected words `ws`. -/
def mismatches (block : List Nat) : Nat → List Nat → List Mismatch
  | _, [] => []
  | i, w :: ws =>
    (if block.getD i 0 ≠ w then [⟨i, block.getD i 0, w⟩] else []) ++ mismatches block (i + 1) ws

/-- The content that filling `k` blocks of `words` words writes, block by block, from
generator state `state`, and the state afterwards. -/
def draw_blocks (p : Target) (words : Nat) : Nat → Nat → List (List Nat) × Nat
  | 0, state => ([], state)
  | k + 1, state =>
    let d := prng_draw p words state
    let rest := draw_blocks p words k d.2
    (d.1 :: rest.1, rest.2)

/-- The results of `check_block` on blocks `i`, `i + 1`, ..., `i + k - 1`, each call
continuing with the generator state the previous one left. -/
def check_results (p : Target) (words : Nat) (blocks : List (List Nat)) :
    Nat → Nat → Nat → List Checked
  | 0, _, _ => []
  | k + 1, i, state =>
    let c := check_block p (blocks.getD i []) words state
    c :: check_results p words blocks k (i + 1) c.state

/-- The block set has `num_of_blocks` blocks of `words_per_block` words each. -/
def shaped (inst : Inst) : Prop :=
  inst.blocks.length = inst.num_of_blocks ∧ ∀ b ∈ inst.blocks, b.length = inst.words_per_block

instance (inst : Inst) : Decidable (shaped inst) := by
  unfold shaped
  infer_instance

/-- Whether some `check_block` call recorded in the trace returned non-zero. -/
def mismatch_seen (trace : List Event) : Bool :=
  trace.any fun e =>
    match e with
    | Event.compare results => results.any fun c => decide (c.ret ≠ 0)
    | _ => false

/-- A phase without the outcome of the comparison: for a comparison pass only the
number of `check_block` calls is kept. -/
inductive Phase where
  | fill (seed : Nat)
  | wait
  | interrupted
  | compare (calls : Nat)
  deriving DecidableEq, Repr

/-- The phase of an event. -/
def phase : Event → Phase
  | Event.fill seed => Phase.fill seed
  | Event.wait => Phase.wait
  | Event.interrupted => Phase.interrupted
  | Event.compare results => Phase.compare results.length

/-- Whether the event is a fill phase. -/
def is_fill : Event → Bool
  | Event.fill _ => true
  | _ => false

/-- Whether the event is a comparison pass. -/
def is_compare : Event → Bool
  | Event.compare _ => true
  | _ => false

/-- Whether the event is a fade wait. -/
def is_wait : Event → Bool
  | Event.wait => true
  | _ => false

/-- The course of a run without the memory contents and the comparison outcomes: the
configuration, the counters and the phases. -/
structure Course where
  num_of_blocks : Nat
  words_per_block : Nat
  iterations_left : Nat
  read_iterations : Nat
  fade_time : Nat × Nat
  reads : Nat
  fills : Nat
  passes : Nat
  phases : List Phase
  deriving DecidableEq, Repr

/-- The course of a run. -/
def course (st : Run) : Course :=
  { num_of_blocks := st.inst.num_of_blocks
    words_per_block := st.inst.words_per_block
    iterations_left := st.inst.iterations_left
    read_iterations := st.inst.read_iterations
    fade_time := st.inst.fade_time
    reads := st.reads
    fills := st.fills
    passes := st.passes
    phases := st.trace.map phase }

/-- The results of the first comparison pass in a trace, if there is one. -/
def first_compare : List Event → Option (List Checked)
  | [] => none
  | Event.compare results :: _ => some results
  | _ :: rest => first_compare rest

/-- The field `return_value` during a run started with -1: it is -2 once a
`check_block` call has returned non-zero and -1 before. -/
def tracks_mismatch (st : Run) : Prop :=
  st.inst.return_value = if mismatch_seen st.trace = true then -2 else -1

/-! ## Properties -/

theorem and_high_mask (s : Nat) (h : s < 2 ^ 32) :
    s &&& 0xffff0000 = (s / 2 ^ 16) * 2 ^ 16 := by
  have e : (0xffff0000 : Nat) = (2 ^ 16 - 1) <<< 16 := by decide
  rw [← Nat.shiftRight_eq_div_pow, ← Nat.shiftLeft_eq]
  apply Nat.eq_of_testBit_eq
  intro i
  rw [Nat.testBit_and, e, Nat.testBit_shiftLeft, Nat.testBit_shiftLeft,
    Nat.testBit_two_pow_sub_one, Nat.testBit_shiftRight]
  by_cases h1 : 16 ≤ i
  · have e2 : 16 + (i - 16) = i := by omega
    rw [e2]
    by_cases h2 : i - 16 < 16
    · simp [h1, h2]
    · have : s.testBit i = false := by
        apply Nat.testBit_lt_two_pow
        calc s < 2 ^ 32 := h
          _ ≤ 2 ^ i := Nat.pow_le_pow_right (by decide) (by omega)
      simp [this]
  · simp [h1]

theorem and_low_mask (s : Nat) : s &&& 0x0000ffff = s % 2 ^ 16 := by
  have e : (0x0000ffff : Nat) = 2 ^ 16 - 1 := by decide
  rw [e, Nat.and_pow_two_sub_one_eq_mod]

theorem prng_init_eq (s st : Nat) (h : s < 2 ^ 32) :
    prng_init s st = s % 2 ^ 16 + (s / 2 ^ 16) * 2 ^ 32 := by
  unfold prng_init
  rw [and_high_mask s h, and_low_mask, Nat.shiftLeft_eq]
  have hr : s % 2 ^ 16 < 2 ^ 32 := by omega
  have e1 : s % 2 ^ 16 % 2 ^ 64 = s % 2 ^ 16 := by omega
  have e2 : s / 2 ^ 16 * 2 ^ 16 % 2 ^ 64 * 2 ^ 16 % 2 ^ 64 = 2 ^ 32 * (s / 2 ^ 16) := by omega
  rw [e1, e2, Nat.or_comm, ← Nat.mul_add_lt_is_or hr]
  omega

theorem prng_init_testBit (s st i : Nat) (h : s < 2 ^ 32) :
    (prng_init s st).testBit i =
      if i < 16 then s.testBit i
      else if 32 ≤ i ∧ i < 48 then s.testBit (i - 16) else false := by
  rw [prng_init_eq s st h]
  have hr : s % 2 ^ 16 < 2 ^ 32 := by omega
  have e : s % 2 ^ 16 + s / 2 ^ 16 * 2 ^ 32 = 2 ^ 32 * (s / 2 ^ 16) + s % 2 ^ 16 := by omega
  rw [e, Nat.testBit_mul_pow_two_add _ hr]
  by_cases h1 : i < 16
  · have h2 : i < 32 := by omega
    rw [if_pos h2, if_pos h1, Nat.testBit_mod_two_pow]
    simp [h1]
  · by_cases h2 : i < 32
    · have : (s % 2 ^ 16).testBit i = false := by
        apply Nat.testBit_lt_two_pow
        calc s % 2 ^ 16 < 2 ^ 16 := Nat.mod_lt _ (by decide)
          _ ≤ 2 ^ i := Nat.pow_le_pow_right (by decide) (by omega)
      have h3 : ¬ (32 ≤ i ∧ i < 48) := by omega
      rw [if_pos h2, if_neg h1, if_neg h3]
      exact this
    · rw [← Nat.shiftRight_eq_div_pow, Nat.testBit_shiftRight]
      by_cases h4 : i < 48
      · have e3 : 16 + (i - 32) = i - 16 := by omega
        have h5 : 32 ≤ i := by omega
        simp [h1, h2, h4, h5, e3]
      · have : s.testBit (16 + (i - 32)) = false := by
          apply Nat.testBit_lt_two_pow
          calc s < 2 ^ 32 := h
            _ ≤ 2 ^ (16 + (i - 32)) := Nat.pow_le_pow_right (by decide) (by omega)
        simp [h1, h2, h4, this]

/-- C10. For every 32-bit seed `s`, `prng_init` stores `(s mod 2^16) + (s div 2^16) * 2^32`:
bit `i` of the state is bit `i` of the seed for `i < 16`, bit `i - 16` of the seed
for `32 ≤ i < 48`, and zero otherwise; two distinct 32-bit seeds give distinct
states, whatever the states held before. -/
theorem prng_init_injective (s1 s2 st1 st2 : Nat) (h1 : s1 < 2 ^ 32) (h2 : s2 < 2 ^ 32) :
    prng_init s1 st1 = s1 % 2 ^ 16 + (s1 / 2 ^ 16) * 2 ^ 32 ∧
    (∀ i, (prng_init s1 st1).testBit i =
      if i < 16 then s1.testBit i
      else if 32 ≤ i ∧ i < 48 then s1.testBit (i - 16) else false) ∧
    (s1 ≠ s2 → prng_init s1 st1 ≠ prng_init s2 st2) := by
  refine ⟨prng_init_eq s1 st1 h1, fun i => prng_init_testBit s1 st1 i h1, ?_⟩
  intro hne heq
  rw [prng_init_eq s1 st1 h1, prng_init_eq s2 st2 h2] at heq
  omega

theorem prng_init_injective_witness :
    prng_init 0x00010002 0 = 0x00010002 % 2 ^ 16 + (0x00010002 / 2 ^ 16) * 2 ^ 32 ∧
    (∀ i, (prng_init 0x00010002 0).testBit i =
      if i < 16 then (0x00010002 : Nat).testBit i
      else if 32 ≤ i ∧ i < 48 then (0x00010002 : Nat).testBit (i - 16) else false) ∧
    (0x00010002 ≠ 0x00020001 → prng_init 0x00010002 0 ≠ prng_init 0x00020001 7) :=
  prng_init_injective 0x00010002 0x00020001 0 7 (by decide) (by decide)

/-- C3. Seeding with `S` and drawing `N` words gives the same words and the same final
state whatever the state held before `prng_init`: the sequence depends on `S` alone. -/
theorem prng_sequence_deterministic (p : Target) (S N st1 st2 : Nat) :
    prng_draw p N (prng_init S st1) = prng_draw p N (prng_init S st2) := by
  rfl

/-! ### The generator -/

theorem prng_draw_length (p : Target) (n st : Nat) : (prng_draw p n st).1.length = n := by
  induction n generalizing st with
  | zero => rfl
  | succ n ih => simp [prng_draw, ih]

theorem prng_draw_succ (p : Target) (n st : Nat) :
    prng_draw p (n + 1) st =
      ((prng_next p st).1 :: (prng_draw p n (prng_next p st).2).1,
        (prng_draw p n (prng_next p st).2).2) := by
  rw [prng_draw]

theorem prng_draw_add (p : Target) (m n st : Nat) :
    prng_draw p (m + n) st =
      ((prng_draw p m st).1 ++ (prng_draw p n (prng_draw p m st).2).1,
        (prng_draw p n (prng_draw p m st).2).2) := by
  induction m generalizing st with
  | zero =>
    rw [Nat.zero_add]
    rfl
  | succ m ih =>
    have e : m + 1 + n = (m + n) + 1 := by omega
    rw [e, prng_draw_succ, prng_draw_succ, ih]
    rfl

/-! ### Filling and checking one block -/

theorem fill_block_loop_eq (p : Target) (k : Nat) :
    ∀ (pre mid suf : List Nat) (st : Nat), mid.length = k →
      fill_block_loop p k pre.length (pre ++ mid ++ suf) st =
        (pre ++ (prng_draw p k st).1 ++ suf, (prng_draw p k st).2) := by
  induction k with
  | zero =>
    intro pre mid suf st h
    have : mid = [] := List.length_eq_zero.mp h
    subst this
    simp [fill_block_loop, prng_draw]
  | succ k ih =>
    intro pre mid suf st h
    cases mid with
    | nil => simp at h
    | cons x mid =>
      have hk : mid.length = k := by simpa using h
      have e : (pre ++ x :: mid ++ suf).set pre.length (prng_next p st).1 =
          (pre ++ [(prng_next p st).1]) ++ mid ++ suf := by
        simp [List.set_append_right]
      have e2 : pre.length + 1 = (pre ++ [(prng_next p st).1]).length := by simp
      simp only [fill_block_loop, prng_draw]
      rw [e, e2, ih _ _ _ _ hk]
      simp

theorem fill_block_eq (p : Target) (block : List Nat) (n st : Nat) (h : block.length = n) :
    fill_block p block n st = prng_draw p n st := by
  have := fill_block_loop_eq p n [] block [] st h
  simpa [fill_block] using this

theorem getD_append_length (pre suf : List Nat) (x : Nat) :
    (pre ++ x :: suf).getD pre.length 0 = x := by
  induction pre with
  | nil => rfl
  | cons y pre ih => simpa using ih

theorem set_append_length (pre suf : List Nat) (x v : Nat) :
    (pre ++ x :: suf).set pre.length v = pre ++ v :: suf := by
  induction pre with
  | nil => rfl
  | cons y pre ih => simp [List.set, ih]

theorem mismatches_cons (block : List Nat) (i w : Nat) (ws : List Nat) :
    mismatches block i (w :: ws) =
      (if block.getD i 0 ≠ w then [⟨i, block.getD i 0, w⟩] else []) ++
        mismatches block (i + 1) ws := by
  rw [mismatches]

theorem check_block_loop_succ (p : Target) (k i : Nat) (block : List Nat) (acc : Checked) :
    check_block_loop p (k + 1) i block acc =
      if block.getD i 0 ≠ (prng_next p acc.state).1 then
        check_block_loop p k (i + 1) block
          ⟨-1, acc.reports ++ [⟨i, block.getD i 0, (prng_next p acc.state).1⟩],
            (prng_next p acc.state).2⟩
      else
        check_block_loop p k (i + 1) block ⟨acc.ret, acc.reports, (prng_next p acc.state).2⟩ := by
  rw [check_block_loop]

theorem check_block_loop_eq (p : Target) (block : List Nat) (k : Nat) :
    ∀ (i : Nat) (acc : Checked),
      check_block_loop p k i block acc =
        ⟨if mismatches block i (prng_draw p k acc.state).1 = [] then acc.ret else -1,
          acc.reports ++ mismatches block i (prng_draw p k acc.state).1,
          (prng_draw p k acc.state).2⟩ := by
  induction k with
  | zero =>
    intro i acc
    simp [check_block_loop, prng_draw, mismatches]
  | succ k ih =>
    intro i acc
    rw [check_block_loop_succ, prng_draw_succ, mismatches_cons]
    by_cases h : block.getD i 0 = (prng_next p acc.state).1
    · rw [if_neg (not_not.mpr h), ih, if_neg (not_not.mpr h)]
      simp only [List.nil_append]
    · rw [if_pos h, ih, if_pos h]
      simp only [List.append_assoc, List.singleton_append, List.cons_append, List.nil_append,
        List.append_eq_nil, List.cons_ne_nil, false_and, if_false, reduceCtorEq]
      simp

theorem check_block_eq (p : Target) (block : List Nat) (n st : Nat) :
    check_block p block n st =
      ⟨if mismatches block 0 (prng_draw p n st).1 = [] then 0 else -1,
        mismatches block 0 (prng_draw p n st).1, (prng_draw p n st).2⟩ := by
  unfold check_block
  rw [check_block_loop_eq]
  simp only [List.nil_append]

theorem mismatches_append (block : List Nat) (a b : List Nat) (i : Nat) :
    mismatches block i (a ++ b) = mismatches block i a ++ mismatches block (i + a.length) b := by
  induction a generalizing i with
  | nil => simp [mismatches]
  | cons x a ih =>
    have e : i + 1 + a.length = i + (a.length + 1) := by omega
    rw [List.cons_append, mismatches_cons, mismatches_cons, ih, List.length_cons, e,
      List.append_assoc]

theorem mismatches_same (pre ws suf : List Nat) :
    mismatches (pre ++ ws ++ suf) pre.length ws = [] := by
  induction ws generalizing pre with
  | nil => simp [mismatches]
  | cons x ws ih =>
    have e : pre ++ x :: ws ++ suf = (pre ++ [x]) ++ ws ++ suf := by simp
    have e2 : pre.length + 1 = (pre ++ [x]).length := by simp
    have e3 : (pre ++ x :: ws ++ suf).getD pre.length 0 = x := by
      rw [List.append_assoc, List.cons_append, getD_append_length]
    rw [mismatches_cons, e3, if_neg (not_not.mpr rfl), List.nil_append, e, e2, ih]

theorem mismatches_set (ws : List Nat) (j v : Nat) (hj : j < ws.length)
    (hv : v ≠ ws.getD j 0) :
    mismatches (ws.set j v) 0 ws = [⟨j, v, ws.getD j 0⟩] := by
  obtain ⟨a, x, b, rfl, ha⟩ : ∃ a x b, ws = a ++ x :: b ∧ a.length = j :=
    ⟨ws.take j, ws[j], ws.drop (j + 1), by simp, by simp; omega⟩
  subst ha
  rw [getD_append_length] at hv ⊢
  rw [set_append_length, mismatches_append]
  have h1 := mismatches_same [] a (v :: b)
  rw [List.nil_append, List.length_nil] at h1
  have h2 := mismatches_same (a ++ [v]) b []
  rw [List.append_nil, List.append_assoc, List.singleton_append, List.length_append,
    List.length_singleton] at h2
  rw [h1, Nat.zero_add, mismatches_cons, getD_append_length, h2, if_pos hv]
  rfl

/-! ### Filling and checking a block set -/

theorem getD_append_length_block (pre suf : List (List Nat)) (x : List Nat) :
    (pre ++ x :: suf).getD pre.length [] = x := by
  induction pre with
  | nil => rfl
  | cons y pre ih => simpa using ih

theorem set_append_length_block (pre suf : List (List Nat)) (x v : List Nat) :
    (pre ++ x :: suf).set pre.length v = pre ++ v :: suf := by
  induction pre with
  | nil => rfl
  | cons y pre ih => simp [List.set, ih]

theorem fill_blocks_loop_succ (p : Target) (W k i : Nat) (blocks : List (List Nat))
    (st : Nat) :
    fill_blocks_loop p W (k + 1) i blocks st =
      fill_blocks_loop p W k (i + 1)
        (blocks.set i (fill_block p (blocks.getD i []) W st).1)
        (fill_block p (blocks.getD i []) W st).2 := by
  rw [fill_blocks_loop]

theorem draw_blocks_succ (p : Target) (W k st : Nat) :
    draw_blocks p W (k + 1) st =
      ((prng_draw p W st).1 :: (draw_blocks p W k (prng_draw p W st).2).1,
        (draw_blocks p W k (prng_draw p W st).2).2) := by
  rw [draw_blocks]

theorem fill_blocks_loop_eq (p : Target) (W k : Nat) :
    ∀ (pre mid suf : List (List Nat)) (st : Nat), mid.length = k →
      (∀ b ∈ mid, b.length = W) →
      fill_blocks_loop p W k pre.length (pre ++ mid ++ suf) st =
        (pre ++ (draw_blocks p W k st).1 ++ suf, (draw_blocks p W k st).2) := by
  induction k with
  | zero =>
    intro pre mid suf st h _
    have : mid = [] := List.length_eq_zero.mp h
    subst this
    simp [fill_blocks_loop, draw_blocks]
  | succ k ih =>
    intro pre mid suf st h hW
    cases mid with
    | nil => simp at h
    | cons x mid =>
      have hk : mid.length = k := by simpa using h
      have hx : x.length = W := hW x (by simp)
      have hm : ∀ b ∈ mid, b.length = W := fun b hb => hW b (by simp [hb])
      have e0 : pre ++ x :: mid ++ suf = pre ++ x :: (mid ++ suf) := by simp
      have e2 : pre.length + 1 = (pre ++ [(prng_draw p W st).1]).length := by simp
      have e3 : pre ++ (prng_draw p W st).1 :: (mid ++ suf) =
          (pre ++ [(prng_draw p W st).1]) ++ mid ++ suf := by simp
      rw [fill_blocks_loop_succ, draw_blocks_succ, e0, getD_append_length_block,
        set_append_length_block, fill_block_eq p x W st hx, e2, e3, ih _ _ _ _ hk hm]
      simp

theorem check_block_state (p : Target) (block : List Nat) (n st : Nat) :
    (check_block p block n st).state = (prng_draw p n st).2 := by
  rw [check_block_eq]

theorem check_blocks_loop_succ (p : Target) (W : Nat) (blocks : List (List Nat))
    (k i : Nat) (acc : Pass) :
    check_blocks_loop p W blocks (k + 1) i acc =
      check_blocks_loop p W blocks k (i + 1)
        ⟨if (check_block p (blocks.getD i []) W acc.state).ret ≠ 0 then -2
            else acc.return_value,
          (check_block p (blocks.getD i []) W acc.state).state,
          acc.results ++ [check_block p (blocks.getD i []) W acc.state]⟩ := by
  rw [check_blocks_loop]

theorem check_results_succ (p : Target) (W : Nat) (blocks : List (List Nat))
    (k i st : Nat) :
    check_results p W blocks (k + 1) i st =
      check_block p (blocks.getD i []) W st ::
        check_results p W blocks k (i + 1) (prng_draw p W st).2 := by
  rw [check_results, check_block_state]

theorem check_blocks_loop_eq (p : Target) (W : Nat) (blocks : List (List Nat)) (k : Nat) :
    ∀ (i : Nat) (acc : Pass),
      check_blocks_loop p W blocks k i acc =
        ⟨if ∀ c ∈ check_results p W blocks k i acc.state, c.ret = 0
            then acc.return_value else -2,
          (draw_blocks p W k acc.state).2,
          acc.results ++ check_results p W blocks k i acc.state⟩ := by
  induction k with
  | zero => intro i acc; simp [check_blocks_loop, check_results, draw_blocks]
  | succ k ih =>
    intro i acc
    rw [check_blocks_loop_succ, ih, check_results_succ, draw_blocks_succ, check_block_state]
    generalize check_block p (blocks.getD i []) W acc.state = c
    generalize check_results p W blocks k (i + 1) (prng_draw p W acc.state).2 = rs
    by_cases h : c.ret = 0
    · simp [h]
    · simp [h]

theorem check_results_eq_map (p : Target) (W : Nat) (blocks : List (List Nat)) (k : Nat) :
    ∀ (i st : Nat),
      check_results p W blocks k i st =
        (List.range k).map fun r =>
          check_block p (blocks.getD (i + r) []) W (draw_blocks p W r st).2 := by
  induction k with
  | zero => intro i st; simp [check_results]
  | succ k ih =>
    intro i st
    rw [List.range_succ_eq_map, check_results_succ, ih, List.map_cons, List.map_map]
    congr 1
    apply List.map_congr_left
    intro r _
    have e : i + 1 + r = i + (r + 1) := by omega
    simp only [Function.comp, draw_blocks_succ, e]

theorem draw_blocks_eq_map (p : Target) (W k : Nat) :
    ∀ st : Nat,
      (draw_blocks p W k st).1 =
        (List.range k).map fun r => (prng_draw p W (draw_blocks p W r st).2).1 := by
  induction k with
  | zero => intro st; simp [draw_blocks]
  | succ k ih =>
    intro st
    rw [List.range_succ_eq_map, draw_blocks_succ, List.map_cons, List.map_map]
    simp only [ih]
    congr 1

theorem getD_map_range (f : Nat → List Nat) (k r : Nat) (h : r < k) :
    ((List.range k).map f).getD r [] = f r := by
  simp [List.getD_eq_getElem?_getD, List.getElem?_range h]

theorem fill_blocks_eq (p : Target) (W B : Nat) (blocks : List (List Nat)) (st : Nat)
    (hB : blocks.length = B) (hW : ∀ b ∈ blocks, b.length = W) :
    fill_blocks_loop p W B 0 blocks st = draw_blocks p W B st := by
  have := fill_blocks_loop_eq p W B [] blocks [] st hB hW
  simpa using this

theorem check_block_clean (p : Target) (W st : Nat) :
    check_block p (prng_draw p W st).1 W st = ⟨0, [], (prng_draw p W st).2⟩ := by
  have h := mismatches_same [] (prng_draw p W st).1 []
  rw [List.nil_append, List.append_nil, List.length_nil] at h
  rw [check_block_eq, h, if_pos rfl]

theorem check_block_corrupt (p : Target) (W st j v : Nat) (hj : j < W)
    (hv : v ≠ (prng_draw p W st).1.getD j 0) :
    check_block p ((prng_draw p W st).1.set j v) W st =
      ⟨-1, [⟨j, v, (prng_draw p W st).1.getD j 0⟩], (prng_draw p W st).2⟩ := by
  have hl : j < (prng_draw p W st).1.length := by rw [prng_draw_length]; exact hj
  rw [check_block_eq, mismatches_set _ j v hl hv, if_neg (List.cons_ne_nil _ _)]

/-- C1. Round trip: when every block of a block set of `B` blocks of `W` words is
filled in order from a generator initialised with `prng_init S` and the memory is
left unchanged, the comparison loop run from a generator initialised again with
`prng_init S` calls `check_block` once per block, every call returns 0 and reports
nothing, and `return_value` keeps the value it had (it is not set to -2). -/
theorem fill_then_check_clean (p : Target) (S B W : Nat) (blocks : List (List Nat))
    (st0 st1 : Nat) (rv : Int)
    (hB : blocks.length = B) (hW : ∀ b ∈ blocks, b.length = W) :
    (check_blocks_loop p W (fill_blocks_loop p W B 0 blocks (prng_init S st0)).1 B 0
        ⟨rv, prng_init S st1, []⟩).results.length = B ∧
    (∀ c ∈ (check_blocks_loop p W (fill_blocks_loop p W B 0 blocks (prng_init S st0)).1 B 0
        ⟨rv, prng_init S st1, []⟩).results, c.ret = 0 ∧ c.reports = []) ∧
    (check_blocks_loop p W (fill_blocks_loop p W B 0 blocks (prng_init S st0)).1 B 0
        ⟨rv, prng_init S st1, []⟩).return_value = rv := by
  have hs : prng_init S st1 = prng_init S st0 := by unfold prng_init; rfl
  rw [fill_blocks_eq p W B blocks _ hB hW, check_blocks_loop_eq, hs]
  simp only [List.nil_append]
  have key : ∀ c ∈ check_results p W (draw_blocks p W B (prng_init S st0)).1 B 0
      (prng_init S st0), c.ret = 0 ∧ c.reports = [] := by
    intro c hc
    rw [check_results_eq_map] at hc
    obtain ⟨r, hr, rfl⟩ := List.mem_map.mp hc
    have hr : r < B := List.mem_range.mp hr
    rw [draw_blocks_eq_map, Nat.zero_add, getD_map_range _ _ _ hr, check_block_clean]
    exact ⟨rfl, rfl⟩
  refine ⟨?_, key, ?_⟩
  · rw [check_results_eq_map, List.length_map, List.length_range]
  · rw [if_pos (fun c hc => (key c hc).1)]

theorem fill_then_check_clean_witness :
    (check_blocks_loop ⟨Half.high, ByteOrder.little⟩ 2
        (fill_blocks_loop ⟨Half.high, ByteOrder.little⟩ 2 3 0 [[0, 0], [5, 6], [7, 8]]
          (prng_init 0xdeadbeef 0)).1 3 0
        ⟨-1, prng_init 0xdeadbeef 99, []⟩).results.length = 3 ∧
    (∀ c ∈ (check_blocks_loop ⟨Half.high, ByteOrder.little⟩ 2
        (fill_blocks_loop ⟨Half.high, ByteOrder.little⟩ 2 3 0 [[0, 0], [5, 6], [7, 8]]
          (prng_init 0xdeadbeef 0)).1 3 0
        ⟨-1, prng_init 0xdeadbeef 99, []⟩).results, c.ret = 0 ∧ c.reports = []) ∧
    (check_blocks_loop ⟨Half.high, ByteOrder.little⟩ 2
        (fill_blocks_loop ⟨Half.high, ByteOrder.little⟩ 2 3 0 [[0, 0], [5, 6], [7, 8]]
          (prng_init 0xdeadbeef 0)).1 3 0
        ⟨-1, prng_init 0xdeadbeef 99, []⟩).return_value = -1 :=
  fill_then_check_clean ⟨Half.high, ByteOrder.little⟩ 0xdeadbeef 3 2 [[0, 0], [5, 6], [7, 8]]
    0 99 (-1) (by decide) (by decide)

/-! ### One comparison pass -/

/-- The results of the comparison pass that starts in state `st`. -/
theorem comparison_pass_eq (p : Target) (w : World) (st : Run) :
    comparison_pass p w st =
      { inst := { st.inst with
                  blocks := apply_memory (w.memory st.passes) st.inst.blocks
                  rand_state := (draw_blocks p st.inst.words_per_block st.inst.num_of_blocks
                    (prng_init st.inst.rand_seed 0)).2
                  return_value :=
                    if ∀ c ∈ check_results p st.inst.words_per_block
                        (apply_memory (w.memory st.passes) st.inst.blocks)
                        st.inst.num_of_blocks 0 (prng_init st.inst.rand_seed 0), c.ret = 0
                    then st.inst.return_value else -2 }
        reads := st.reads + 1
        fills := st.fills
        passes := st.passes + 1
        trace := st.trace ++ (if st.inst.fade_time.1 = 0 ∧ st.inst.fade_time.2 = 0 then []
            else [Event.wait])
          ++ (if w.running st.reads = false then [Event.interrupted] else [])
          ++ [Event.compare (check_results p st.inst.words_per_block
                (apply_memory (w.memory st.passes) st.inst.blocks)
                st.inst.num_of_blocks 0 (prng_init st.inst.rand_seed 0))] } := by
  have hs : ∀ x, prng_init st.inst.rand_seed x = prng_init st.inst.rand_seed 0 := fun _ => rfl
  unfold comparison_pass memory_fade_delay
  by_cases hf : st.inst.fade_time.1 = 0 ∧ st.inst.fade_time.2 = 0
  · by_cases hr : w.running st.reads = false
    · simp [hf, hr, check_blocks_loop_eq, hs]
    · simp [hf, hr, check_blocks_loop_eq, hs]
  · by_cases hr : w.running st.reads = false
    · simp [hf, hr, check_blocks_loop_eq, hs]
    · simp [hf, hr, check_blocks_loop_eq, hs]

theorem check_results_length (p : Target) (W : Nat) (blocks : List (List Nat)) (k i st : Nat) :
    (check_results p W blocks k i st).length = k := by
  simp [check_results_eq_map]

/-! ### The result of an instance follows the comparisons -/

theorem mismatch_seen_append (a b : List Event) :
    mismatch_seen (a ++ b) = (mismatch_seen a || mismatch_seen b) := by
  simp [mismatch_seen, List.any_append]

theorem mismatch_seen_compare (rs : List Checked) :
    mismatch_seen [Event.compare rs] = true ↔ ¬ ∀ c ∈ rs, c.ret = 0 := by
  simp [mismatch_seen]

theorem mismatch_seen_pass (tr : List Event) (c1 c2 : Prop) [Decidable c1] [Decidable c2]
    (rs : List Checked) :
    mismatch_seen (tr ++ (if c1 then [] else [Event.wait]) ++
      (if c2 then [Event.interrupted] else []) ++ [Event.compare rs]) = true ↔
      (mismatch_seen tr = true ∨ ¬ ∀ c ∈ rs, c.ret = 0) := by
  by_cases h1 : c1 <;> by_cases h2 : c2 <;> simp [h1, h2, mismatch_seen]

theorem comparison_pass_tracks (p : Target) (w : World) (st : Run) (h : tracks_mismatch st) :
    tracks_mismatch (comparison_pass p w st) := by
  unfold tracks_mismatch at *
  rw [comparison_pass_eq]
  simp only [mismatch_seen_pass]
  generalize check_results p st.inst.words_per_block
      (apply_memory (w.memory st.passes) st.inst.blocks)
      st.inst.num_of_blocks 0 (prng_init st.inst.rand_seed 0) = rs
  by_cases hc : ∀ c ∈ rs, c.ret = 0
  · by_cases hm : mismatch_seen st.trace = true
    · rw [if_pos hc, if_pos (Or.inl hm), h, if_pos hm]
    · have hn : ¬ (mismatch_seen st.trace = true ∨ ¬ ∀ c ∈ rs, c.ret = 0) := by
        intro hx
        cases hx with
        | inl hx => exact hm hx
        | inr hx => exact hx hc
      rw [if_pos hc, if_neg hn, h, if_neg hm]
  · rw [if_neg hc, if_pos (Or.inr hc)]

theorem read_loop_tracks (p : Target) (w : World) (ri : Nat) :
    ∀ st : Run, tracks_mismatch st → tracks_mismatch (read_loop p w ri st) := by
  induction ri with
  | zero => intro st h; exact h
  | succ ri ih =>
    intro st h
    have h1 := comparison_pass_tracks p w st h
    simp only [read_loop]
    split
    · exact h1
    · exact ih _ h1

theorem fill_phase_tracks (p : Target) (w : World) (st : Run) (h : tracks_mismatch st) :
    tracks_mismatch (fill_phase p w st) := by
  unfold tracks_mismatch at *
  simp only [fill_phase, mismatch_seen_append]
  simpa [mismatch_seen] using h

theorem outer_iteration_tracks (p : Target) (w : World) (st : Run) (h : tracks_mismatch st) :
    tracks_mismatch (outer_iteration p w st) := by
  have h2 := read_loop_tracks p w (fill_phase p w st).inst.read_iterations _
    (fill_phase_tracks p w st h)
  unfold tracks_mismatch at *
  simp only [outer_iteration, end_of_iteration]
  split
  · exact h2
  · exact h2

theorem memtest_loop_tracks (p : Target) (w : World) (fuel : Nat) :
    ∀ st st2 : Run, tracks_mismatch st → memtest_loop p w fuel st = some st2 →
      tracks_mismatch st2 := by
  induction fuel with
  | zero => intro st st2 _ h; simp [memtest_loop] at h
  | succ fuel ih =>
    intro st st2 h hrun
    simp only [memtest_loop] at hrun
    split at hrun
    · have h2 : tracks_mismatch { st with reads := st.reads + 1 } := h
      exact ih _ _ (outer_iteration_tracks p w _ h2) hrun
    · cases hrun
      exact h

theorem perform_memtest_result (p : Target) (w : World) (fuel : Nat) (inst : Inst)
    (st : Run) (h0 : inst.return_value = -1) (h : perform_memtest p w fuel inst = some st) :
    st.inst.return_value = if mismatch_seen st.trace = true then -1 else 0 := by
  unfold perform_memtest at h
  split at h
  · cases h
  · rename_i st1 hrun
    cases h
    have := memtest_loop_tracks p w fuel ⟨inst, 0, 0, 0, []⟩ st1
      (by simp [tracks_mismatch, mismatch_seen, h0]) hrun
    unfold tracks_mismatch at this
    simp only [this]
    split <;> rfl


/-! ### The course of a run does not depend on the memory contents -/

theorem read_loop_succ (p : Target) (w : World) (ri : Nat) (st : Run) :
    read_loop p w (ri + 1) st =
      if w.running (comparison_pass p w st).reads = false then
        { comparison_pass p w st with reads := (comparison_pass p w st).reads + 1 }
      else
        read_loop p w ri
          { comparison_pass p w st with reads := (comparison_pass p w st).reads + 1 } := by
  rw [read_loop]

theorem memtest_loop_succ (p : Target) (w : World) (fuel : Nat) (st : Run) :
    memtest_loop p w (fuel + 1) st =
      if w.running st.reads = true ∧ st.inst.iterations_left > 0 then
        memtest_loop p w fuel (outer_iteration p w { st with reads := st.reads + 1 })
      else some { st with reads := st.reads + 1 } := by
  rw [memtest_loop]

theorem comparison_pass_course (p : Target) (w w2 : World) (st st2 : Run)
    (hr : w.running = w2.running) (h : course st = course st2) :
    course (comparison_pass p w st) = course (comparison_pass p w2 st2) := by
  rw [comparison_pass_eq, comparison_pass_eq]
  simp only [course, Course.mk.injEq] at h ⊢
  obtain ⟨h1, h2, h3, h4, h5, h6, h7, h8, h9⟩ := h
  simp [h1, h2, h3, h4, h5, h6, h7, h8, h9, hr, phase, check_results_length]

theorem course_reads (st st2 : Run) (h : course st = course st2) : st.reads = st2.reads := by
  simp only [course, Course.mk.injEq] at h
  exact h.2.2.2.2.2.1

theorem course_set_reads (st st2 : Run) (h : course st = course st2) :
    course { st with reads := st.reads + 1 } = course { st2 with reads := st2.reads + 1 } := by
  simp only [course, Course.mk.injEq] at h ⊢
  obtain ⟨h1, h2, h3, h4, h5, h6, h7, h8, h9⟩ := h
  simp [h1, h2, h3, h4, h5, h6, h7, h8, h9]

theorem read_loop_course (p : Target) (w w2 : World) (hr : w.running = w2.running)
    (ri : Nat) :
    ∀ st st2 : Run, course st = course st2 →
      course (read_loop p w ri st) = course (read_loop p w2 ri st2) := by
  induction ri with
  | zero => intro st st2 h; exact h
  | succ ri ih =>
    intro st st2 h
    have h1 := comparison_pass_course p w w2 st st2 hr h
    have h2 := course_reads _ _ h1
    have h3 := course_set_reads _ _ h1
    have hcond : w.running (comparison_pass p w st).reads =
        w2.running (comparison_pass p w2 st2).reads := by rw [hr, h2]
    rw [read_loop_succ, read_loop_succ, hcond]
    split
    · exact h3
    · exact ih _ _ h3

theorem fill_phase_course (p : Target) (w w2 : World) (st st2 : Run)
    (hd : w.dev_random = w2.dev_random) (h : course st = course st2) :
    course (fill_phase p w st) = course (fill_phase p w2 st2) := by
  simp only [course, Course.mk.injEq] at h
  obtain ⟨h1, h2, h3, h4, h5, h6, h7, h8, h9⟩ := h
  simp [fill_phase, course, prng_init_from_dev_random, h1, h2, h3, h4, h5, h6, h7, h8, h9,
    hd, phase]

theorem course_read_iterations (st st2 : Run) (h : course st = course st2) :
    st.inst.read_iterations = st2.inst.read_iterations := by
  simp only [course, Course.mk.injEq] at h
  exact h.2.2.2.1

theorem course_iterations_left (st st2 : Run) (h : course st = course st2) :
    st.inst.iterations_left = st2.inst.iterations_left := by
  simp only [course, Course.mk.injEq] at h
  exact h.2.2.1

theorem course_end_of_iteration (st st2 : Run) (h : course st = course st2) :
    course { st with inst := end_of_iteration st.inst } =
      course { st2 with inst := end_of_iteration st2.inst } := by
  have hi := course_iterations_left _ _ h
  simp only [course, Course.mk.injEq] at h
  obtain ⟨h1, h2, h3, h4, h5, h6, h7, h8, h9⟩ := h
  unfold end_of_iteration
  rw [hi]
  split
  · simp [course, h1, h2, h4, h5, h6, h7, h8, h9, hi]
  · simp [course, h1, h2, h4, h5, h6, h7, h8, h9, hi]

theorem outer_iteration_course (p : Target) (w w2 : World) (hr : w.running = w2.running)
    (hd : w.dev_random = w2.dev_random) (st st2 : Run) (h : course st = course st2) :
    course (outer_iteration p w st) = course (outer_iteration p w2 st2) := by
  have h1 := fill_phase_course p w w2 st st2 hd h
  have h2 := course_read_iterations _ _ h1
  unfold outer_iteration
  simp only [h2]
  exact course_end_of_iteration _ _ (read_loop_course p w w2 hr _ _ _ h1)

theorem memtest_loop_course (p : Target) (w w2 : World) (hr : w.running = w2.running)
    (hd : w.dev_random = w2.dev_random) (fuel : Nat) :
    ∀ st st2 : Run, course st = course st2 →
      (memtest_loop p w fuel st).map course = (memtest_loop p w2 fuel st2).map course := by
  induction fuel with
  | zero => intro st st2 _; simp [memtest_loop]
  | succ fuel ih =>
    intro st st2 h
    have h1 := course_reads _ _ h
    have h3 := course_set_reads _ _ h
    have h4 := course_iterations_left _ _ h
    have hcond : w.running st.reads = w2.running st2.reads := by rw [hr, h1]
    rw [memtest_loop_succ, memtest_loop_succ, hcond, h4]
    split
    · exact ih _ _ (outer_iteration_course p w w2 hr hd _ _ h3)
    · simpa using h3

theorem perform_memtest_course (p : Target) (w w2 : World) (hr : w.running = w2.running)
    (hd : w.dev_random = w2.dev_random) (fuel : Nat) (inst : Inst) :
    (perform_memtest p w fuel inst).map course = (perform_memtest p w2 fuel inst).map course := by
  have h := memtest_loop_course p w w2 hr hd fuel ⟨inst, 0, 0, 0, []⟩ ⟨inst, 0, 0, 0, []⟩ rfl
  unfold perform_memtest
  cases h1 : memtest_loop p w fuel ⟨inst, 0, 0, 0, []⟩ <;>
    cases h2 : memtest_loop p w2 fuel ⟨inst, 0, 0, 0, []⟩ <;>
    simp [h1, h2] at h ⊢
  simpa [course] using h


/-! ### What the loops leave alone -/

theorem comparison_pass_fields (p : Target) (w : World) (st : Run) :
    (comparison_pass p w st).inst.num_of_blocks = st.inst.num_of_blocks ∧
    (comparison_pass p w st).inst.words_per_block = st.inst.words_per_block ∧
    (comparison_pass p w st).inst.iterations_left = st.inst.iterations_left ∧
    (comparison_pass p w st).inst.read_iterations = st.inst.read_iterations ∧
    (comparison_pass p w st).inst.fade_time = st.inst.fade_time ∧
    (comparison_pass p w st).inst.rand_seed = st.inst.rand_seed ∧
    (comparison_pass p w st).fills = st.fills ∧
    st.reads ≤ (comparison_pass p w st).reads ∧
    ∃ ext, (comparison_pass p w st).trace = st.trace ++ ext := by
  rw [comparison_pass_eq]
  refine ⟨rfl, rfl, rfl, rfl, rfl, rfl, rfl, Nat.le_succ _, ?_⟩
  exact ⟨_, by simp only [List.append_assoc]; rfl⟩

theorem read_loop_fields (p : Target) (w : World) (ri : Nat) :
    ∀ st : Run,
      (read_loop p w ri st).inst.num_of_blocks = st.inst.num_of_blocks ∧
      (read_loop p w ri st).inst.words_per_block = st.inst.words_per_block ∧
      (read_loop p w ri st).inst.iterations_left = st.inst.iterations_left ∧
      (read_loop p w ri st).inst.read_iterations = st.inst.read_iterations ∧
      (read_loop p w ri st).inst.fade_time = st.inst.fade_time ∧
      (read_loop p w ri st).inst.rand_seed = st.inst.rand_seed ∧
      (read_loop p w ri st).fills = st.fills ∧
      st.reads ≤ (read_loop p w ri st).reads ∧
      ∃ ext, (read_loop p w ri st).trace = st.trace ++ ext := by
  induction ri with
  | zero =>
    intro st
    exact ⟨rfl, rfl, rfl, rfl, rfl, rfl, rfl, Nat.le_refl _, [], (List.append_nil _).symm⟩
  | succ ri ih =>
    intro st
    obtain ⟨a1, a2, a3, a4, a5, a6, a7, a8, e1, a9⟩ := comparison_pass_fields p w st
    rw [read_loop_succ]
    split
    · exact ⟨a1, a2, a3, a4, a5, a6, a7, Nat.le_succ_of_le a8, e1, a9⟩
    · obtain ⟨b1, b2, b3, b4, b5, b6, b7, b8, e2, b9⟩ :=
        ih { comparison_pass p w st with reads := (comparison_pass p w st).reads + 1 }
      refine ⟨b1.trans a1, b2.trans a2, b3.trans a3, b4.trans a4, b5.trans a5, b6.trans a6,
        b7.trans a7, ?_, e1 ++ e2, ?_⟩
      · exact Nat.le_trans a8 (Nat.le_of_succ_le b8)
      · rw [b9]
        show (comparison_pass p w st).trace ++ e2 = st.trace ++ (e1 ++ e2)
        rw [a9, List.append_assoc]

theorem end_of_iteration_fields (inst : Inst) :
    (end_of_iteration inst).num_of_blocks = inst.num_of_blocks ∧
    (end_of_iteration inst).words_per_block = inst.words_per_block ∧
    (end_of_iteration inst).read_iterations = inst.read_iterations ∧
    (end_of_iteration inst).fade_time = inst.fade_time ∧
    (end_of_iteration inst).return_value = inst.return_value ∧
    (end_of_iteration inst).blocks = inst.blocks ∧
    (end_of_iteration inst).rand_seed = inst.rand_seed := by
  unfold end_of_iteration
  split
  · exact ⟨rfl, rfl, rfl, rfl, rfl, rfl, rfl⟩
  · exact ⟨rfl, rfl, rfl, rfl, rfl, rfl, rfl⟩

theorem end_of_iteration_left_eq (inst : Inst) :
    (end_of_iteration inst).iterations_left =
      if inst.iterations_left < UINT32_MAX then uint32_dec inst.iterations_left
      else inst.iterations_left := by
  unfold end_of_iteration
  split
  · rfl
  · rfl

theorem outer_iteration_fields (p : Target) (w : World) (st : Run) :
    (outer_iteration p w st).inst.num_of_blocks = st.inst.num_of_blocks ∧
    (outer_iteration p w st).inst.words_per_block = st.inst.words_per_block ∧
    (outer_iteration p w st).inst.iterations_left = (end_of_iteration st.inst).iterations_left ∧
    (outer_iteration p w st).inst.read_iterations = st.inst.read_iterations ∧
    (outer_iteration p w st).inst.fade_time = st.inst.fade_time ∧
    (outer_iteration p w st).fills = st.fills + 1 ∧
    st.reads ≤ (outer_iteration p w st).reads ∧
    ∃ ext, (outer_iteration p w st).trace = st.trace ++ ext := by
  obtain ⟨b1, b2, b3, b4, b5, _, b7, b8, e2, b9⟩ :=
    read_loop_fields p w (fill_phase p w st).inst.read_iterations (fill_phase p w st)
  obtain ⟨c1, c2, c3, c4, _, _, _⟩ := end_of_iteration_fields
    (read_loop p w (fill_phase p w st).inst.read_iterations (fill_phase p w st)).inst
  refine ⟨c1.trans b1, c2.trans b2, ?_, c3.trans b4, c4.trans b5, b7, b8, ?_⟩
  · show (end_of_iteration
        (read_loop p w (fill_phase p w st).inst.read_iterations (fill_phase p w st)).inst
        ).iterations_left = (end_of_iteration st.inst).iterations_left
    rw [end_of_iteration_left_eq, end_of_iteration_left_eq, b3]
    rfl
  · exact ⟨Event.fill (prng_init_from_dev_random p (w.dev_random st.fills)
        st.inst.rand_state).1 :: e2, by
      show (read_loop p w (fill_phase p w st).inst.read_iterations (fill_phase p w st)).trace = _
      rw [b9]
      show (st.trace ++ [_]) ++ e2 = _
      rw [List.append_assoc]
      rfl⟩

theorem end_of_iteration_left (inst : Inst) (h0 : 0 < inst.iterations_left) :
    (end_of_iteration inst).iterations_left =
      if inst.iterations_left < UINT32_MAX then inst.iterations_left - 1
      else inst.iterations_left := by
  rw [end_of_iteration_left_eq]
  have h2 : inst.iterations_left ≠ 0 := by omega
  unfold uint32_dec
  rw [if_neg h2]

/-! ### Termination -/

theorem memtest_loop_fuel_mono (p : Target) (w : World) (fuel : Nat) :
    ∀ (st r : Run) (d : Nat), memtest_loop p w fuel st = some r →
      memtest_loop p w (fuel + d) st = some r := by
  induction fuel with
  | zero => intro st r d h; simp [memtest_loop] at h
  | succ fuel ih =>
    intro st r d h
    have e : fuel + 1 + d = (fuel + d) + 1 := by omega
    rw [e, memtest_loop_succ]
    rw [memtest_loop_succ] at h
    split
    · rename_i hc
      rw [if_pos hc] at h
      exact ih _ _ d h
    · rename_i hc
      rw [if_neg hc] at h
      exact h

theorem memtest_loop_ends_finite (p : Target) (w : World) (fuel : Nat) :
    ∀ st : Run, st.inst.iterations_left < fuel → st.inst.iterations_left < UINT32_MAX →
      ∃ r, memtest_loop p w fuel st = some r := by
  induction fuel with
  | zero => intro st h; omega
  | succ fuel ih =>
    intro st h hmax
    rw [memtest_loop_succ]
    split
    · rename_i hc
      have hpos : 0 < st.inst.iterations_left := hc.2
      have e : (outer_iteration p w { st with reads := st.reads + 1 }).inst.iterations_left =
          st.inst.iterations_left - 1 := by
        rw [(outer_iteration_fields p w _).2.2.1, end_of_iteration_left _ hpos]
        exact if_pos hmax
      apply ih
      · rw [e]; omega
      · rw [e]; omega
    · exact ⟨_, rfl⟩

theorem memtest_loop_ends_cancelled (p : Target) (w : World) (c : Nat)
    (hc : ∀ t, c ≤ t → w.running t = false) (fuel : Nat) :
    ∀ st : Run, c ≤ st.reads + fuel → ∃ r, memtest_loop p w (fuel + 1) st = some r := by
  induction fuel with
  | zero =>
    intro st h
    have h1 : w.running st.reads = false := hc _ (by omega)
    rw [memtest_loop_succ, if_neg (by rw [h1]; simp)]
    exact ⟨_, rfl⟩
  | succ fuel ih =>
    intro st h
    rw [memtest_loop_succ]
    split
    · apply ih
      have h2 : st.reads + 1 ≤ (outer_iteration p w { st with reads := st.reads + 1 }).reads :=
        (outer_iteration_fields p w { st with reads := st.reads + 1 }).2.2.2.2.2.2.1
      omega
    · exact ⟨_, rfl⟩

/-! ### The memory between the passes -/

theorem map_range_ite {α : Type} (l : List α) (d x : α) (i : Nat) :
    ((List.range l.length).map fun k => if k = i then x else l.getD k d) = l.set i x := by
  apply List.ext_getElem?
  intro n
  by_cases hn : n < l.length
  · by_cases hni : n = i
    · subst hni
      simp [List.getElem?_range hn, List.getElem?_set, hn]
    · have hin : ¬ i = n := fun h => hni h.symm
      simp [List.getElem?_range hn, List.getElem?_set, hn, hni, hin, List.getD_eq_getElem?_getD]
  · have h1 : l.length ≤ n := Nat.le_of_not_lt hn
    rw [List.getElem?_eq_none (by simpa using h1), List.getElem?_eq_none (by simpa using h1)]

theorem map_range_getD {α : Type} (l : List α) (d : α) :
    ((List.range l.length).map fun k => l.getD k d) = l := by
  apply List.ext_getElem?
  intro n
  by_cases hn : n < l.length
  · simp [List.getElem?_range hn, hn, List.getD_eq_getElem?_getD]
  · have h1 : l.length ≤ n := Nat.le_of_not_lt hn
    rw [List.getElem?_eq_none (by simpa using h1), List.getElem?_eq_none (by simpa using h1)]

theorem apply_memory_id (m : Nat → Nat → Nat → Nat) (hm : ∀ i j x, m i j x = x)
    (blocks : List (List Nat)) : apply_memory m blocks = blocks := by
  unfold apply_memory
  have e : (fun i => (List.range (blocks.getD i []).length).map fun j =>
      m i j ((blocks.getD i []).getD j 0)) = fun i => blocks.getD i [] := by
    funext i
    simp only [hm]
    exact map_range_getD _ 0
  rw [e]
  exact map_range_getD _ []

theorem apply_memory_single (m : Nat → Nat → Nat → Nat) (i j v : Nat)
    (hm : ∀ a b x, m a b x = if a = i ∧ b = j then v else x)
    (blocks : List (List Nat)) :
    apply_memory m blocks = blocks.set i ((blocks.getD i []).set j v) := by
  unfold apply_memory
  have e : (fun a => (List.range (blocks.getD a []).length).map fun b =>
      m a b ((blocks.getD a []).getD b 0)) =
      fun a => if a = i then (blocks.getD i []).set j v else blocks.getD a [] := by
    funext a
    by_cases ha : a = i
    · subst ha
      rw [if_pos rfl]
      have e2 : (fun b => m a b ((blocks.getD a []).getD b 0)) =
          fun b => if b = j then v else (blocks.getD a []).getD b 0 := by
        funext b
        rw [hm]
        by_cases hb : b = j
        · rw [if_pos ⟨rfl, hb⟩, if_pos hb]
        · rw [if_neg (fun h => hb h.2), if_neg hb]
      rw [e2]
      exact map_range_ite _ 0 v j
    · rw [if_neg ha]
      have e2 : (fun b => m a b ((blocks.getD a []).getD b 0)) =
          fun b => (blocks.getD a []).getD b 0 := by
        funext b
        rw [hm, if_neg (fun h => ha h.1)]
      rw [e2]
      exact map_range_getD _ 0
  rw [e]
  exact map_range_ite _ [] _ i

theorem getD_set_self (l : List (List Nat)) (i : Nat) (x : List Nat) (h : i < l.length) :
    (l.set i x).getD i [] = x := by
  simp [List.getD_eq_getElem?_getD, List.getElem?_set, h]

theorem getD_set_other (l : List (List Nat)) (i r : Nat) (x : List Nat) (h : r ≠ i) :
    (l.set i x).getD r [] = l.getD r [] := by
  have h2 : ¬ i = r := fun e => h e.symm
  simp [List.getD_eq_getElem?_getD, List.getElem?_set, h2]

end TestMyRam
